import Mathlib

/-!
Verification of the BAKEBAKE_XR print daemon (scripts/yokai-print-server/print_daemon.py).

The development shallowly embeds the daemon's durable print queue, its retry
policy, the job executor (print_yokai), the online-record handler, the local
HTTP intake handler, the recent-jobs bound, the queue-file serialization and
the device lock, and proves or refutes the specified properties about them.
-/

namespace PrintDaemon

/-- A print job as the daemon reads it from a job dict.
Fields mirror the keys accessed in print_daemon.py: `id`, `yokai_name`,
`yokai_desc`, `yokai_image_b64` (each read with `dict.get`, hence optional),
and `_retries` (read as `job.get ("_retries", 0)`, so an absent key is
modelled as `retries = 0`). -/
structure JobData where
  id : Option String
  yokai_name : Option String
  yokai_desc : Option String
  yokai_image_b64 : Option String
  retries : Nat
  deriving DecidableEq, Repr

/-- `MAX_PRINT_RETRIES = 3` (print_daemon.py line 116). -/
def MAX_PRINT_RETRIES : Nat := 3

/-- `job ["_retries"] = retries + 1` (print_daemon.py line 154). -/
def bumpRetries (j : JobData) : JobData :=
  { j with retries := j.retries + 1 }

/-- `enqueue_job` (print_daemon.py lines 135-140): load the queue, append the
job, save.  At the list level this is a plain append; no deduplication. -/
def enqueueJob (q : List JobData) (j : JobData) : List JobData :=
  q ++ [j]

/-- The loop body of `process_queue` (print_daemon.py lines 148-158), folded
over the queue in order.  `render j` is the outcome of `print_yokai (j)`.
Returns the `remaining` list that line 159 persists, paired with the list of
jobs on which `print_yokai` was invoked during the pass (every job of the
queue, in order, each exactly once). -/
def processQueueAux (render : JobData → Bool) : List JobData → List JobData × List JobData
  | [] => ([], [])
  | j :: rest =>
    let r := processQueueAux render rest
    if render j then (r.1, j :: r.2)
    else if j.retries < MAX_PRINT_RETRIES then (bumpRetries j :: r.1, j :: r.2)
    else (r.1, j :: r.2)

/-- The queue persisted by `_save_queue (remaining)` at the end of a
`process_queue` pass. -/
def processQueue (render : JobData → Bool) (q : List JobData) : List JobData :=
  (processQueueAux render q).1

/-- The jobs handed to `print_yokai` during a `process_queue` pass. -/
def renderedJobs (render : JobData → Bool) (q : List JobData) : List JobData :=
  (processQueueAux render q).2

/-- The fate of one queue entry in a `process_queue` pass:
dropped on success, kept with `retries + 1` on failure while retries remain,
dropped (discarded) on failure once retries are exhausted. -/
def stepJob (render : JobData → Bool) (j : JobData) : Option JobData :=
  if render j then none
  else if j.retries < MAX_PRINT_RETRIES then some (bumpRetries j) else none

theorem renderedJobs_eq (render : JobData → Bool) (q : List JobData) :
    renderedJobs render q = q := by
  induction q with
  | nil => rfl
  | cons j rest ih =>
    simp only [renderedJobs, processQueueAux] at *
    cases h : render j <;> simp [ih]
    by_cases h2 : j.retries < MAX_PRINT_RETRIES <;> simp [h2, ih]

theorem processQueue_eq_filterMap (render : JobData → Bool) (q : List JobData) :
    processQueue render q = q.filterMap (stepJob render) := by
  induction q with
  | nil => rfl
  | cons j rest ih =>
    simp only [processQueue, processQueueAux, List.filterMap_cons, stepJob] at *
    cases h : render j <;> simp only [Bool.false_eq_true, if_false, if_true]
    · by_cases h2 : j.retries < MAX_PRINT_RETRIES <;> simp [h2, ih]
    · exact ih

theorem mem_processQueue (render : JobData → Bool) (q : List JobData) (j' : JobData) :
    j' ∈ processQueue render q ↔
      ∃ j ∈ q, render j = false ∧ j.retries < MAX_PRINT_RETRIES ∧ j' = bumpRetries j := by
  rw [processQueue_eq_filterMap, List.mem_filterMap]
  constructor
  · rintro ⟨j, hj, hstep⟩
    refine ⟨j, hj, ?_⟩
    by_cases h : render j
    · simp [stepJob, h] at hstep
    · by_cases h2 : j.retries < MAX_PRINT_RETRIES
      · simp only [stepJob, h, Bool.false_eq_true, if_false, h2, if_true,
          Option.some.injEq] at hstep
        exact ⟨Bool.eq_false_iff.mpr h, h2, hstep.symm⟩
      · simp [stepJob, h, h2] at hstep
  · rintro ⟨j, hj, hf, hlt, rfl⟩
    exact ⟨j, hj, by simp [stepJob, hf, hlt]⟩

theorem processQueue_map_id_sublist (render : JobData → Bool) (q : List JobData) :
    List.Sublist ((processQueue render q).map JobData.id) (q.map JobData.id) := by
  rw [processQueue_eq_filterMap]
  induction q with
  | nil => simp
  | cons j rest ih =>
    rw [List.filterMap_cons]
    cases hs : stepJob render j with
    | none => exact ih.trans (List.sublist_cons_self _ _)
    | some j' =>
      have hid : j'.id = j.id := by
        by_cases h : render j
        · simp [stepJob, h] at hs
        · by_cases h2 : j.retries < MAX_PRINT_RETRIES
          · simp only [stepJob, h, Bool.false_eq_true, if_false, h2, if_true,
              Option.some.injEq] at hs
            simp [← hs, bumpRetries]
          · simp [stepJob, h, h2] at hs
      simpa [hid] using ih.cons₂ j.id

/-- C1: in a `process_queue` pass, a failed job with `retryCount <
MAX_PRINT_RETRIES` is kept in the persisted queue with its retry count
incremented by one; a job that fails while its retry count has already
reached `MAX_PRINT_RETRIES` is dropped from the persisted queue (so,
its id being unique, no later pass can invoke the renderer on it, since a
pass renders exactly the members of the queue it starts from). -/
theorem retry_policy (render : JobData → Bool) (q : List JobData) (j : JobData)
    (hmem : j ∈ q) (hfail : render j = false) :
    (j.retries < MAX_PRINT_RETRIES → bumpRetries j ∈ processQueue render q) ∧
    (MAX_PRINT_RETRIES ≤ j.retries → (q.map JobData.id).Nodup →
      ∀ j' ∈ processQueue render q, j'.id ≠ j.id) ∧
    (∀ q' : List JobData, renderedJobs render q' = q') := by
  refine ⟨?_, ?_, renderedJobs_eq render⟩
  · intro hlt
    exact (mem_processQueue render q _).mpr ⟨j, hmem, hfail, hlt, rfl⟩
  · intro hge hnodup j' hj' heq
    obtain ⟨j₀, hj₀, _, hlt₀, rfl⟩ := (mem_processQueue render q _).mp hj'
    have hid₀ : j₀.id = j.id := heq
    have : j₀ = j := List.inj_on_of_nodup_map hnodup hj₀ hmem hid₀
    subst this
    omega

/-- C1 witness: a job with retry count 0 failing in a singleton queue is kept
with retry count 1. -/
theorem retry_policy_witness :
    ((JobData.mk (some "a") (some "Kappa") none none 0).retries < MAX_PRINT_RETRIES →
      bumpRetries (JobData.mk (some "a") (some "Kappa") none none 0) ∈
        processQueue (fun _ => false) [JobData.mk (some "a") (some "Kappa") none none 0]) ∧
    (MAX_PRINT_RETRIES ≤ (JobData.mk (some "a") (some "Kappa") none none 0).retries →
      (([JobData.mk (some "a") (some "Kappa") none none 0]).map JobData.id).Nodup →
      ∀ j' ∈ processQueue (fun _ => false) [JobData.mk (some "a") (some "Kappa") none none 0],
        j'.id ≠ (JobData.mk (some "a") (some "Kappa") none none 0).id) ∧
    (∀ q' : List JobData, renderedJobs (fun _ => false) q' = q') :=
  retry_policy (fun _ => false) [JobData.mk (some "a") (some "Kappa") none none 0]
    (JobData.mk (some "a") (some "Kappa") none none 0) (List.mem_singleton.mpr rfl) rfl

/-- C1 counterexample: with a renderer that always fails, a job enqueued with
retry count 0 has, after three `process_queue` passes, failed
`MAX_PRINT_RETRIES = 3` times — yet it is still in the persisted queue with
retry count 3, and the next pass invokes the renderer on it again (a fourth
failure is needed before it is discarded). -/
theorem retry_policy_counterexample :
    processQueue (fun _ => false)
        (processQueue (fun _ => false)
          (processQueue (fun _ => false) [JobData.mk (some "a") (some "Kappa") none none 0])) =
      [JobData.mk (some "a") (some "Kappa") none none 3] ∧
    renderedJobs (fun _ => false) [JobData.mk (some "a") (some "Kappa") none none 3] =
      [JobData.mk (some "a") (some "Kappa") none none 3] :=
  ⟨rfl, rfl⟩

/-- C3 (amended): a `process_queue` pass never introduces duplicate ids —
if the queue's ids are pairwise distinct before the pass they stay pairwise
distinct after it — but `enqueue_job` does not deduplicate, so distinctness
is an assumption on the input queue, not an unconditional invariant. -/
theorem processQueue_nodup_ids (render : JobData → Bool) (q : List JobData)
    (h : (q.map JobData.id).Nodup) :
    ((processQueue render q).map JobData.id).Nodup :=
  List.Nodup.sublist (processQueue_map_id_sublist render q) h

/-- C3 witness: a two-job queue with distinct ids keeps distinct ids across a
failing pass. -/
theorem processQueue_nodup_ids_witness :
    ((processQueue (fun _ => false)
        [JobData.mk (some "a") (some "Kappa") none none 0,
         JobData.mk (some "b") (some "Oni") none none 0]).map JobData.id).Nodup :=
  processQueue_nodup_ids (fun _ => false)
    [JobData.mk (some "a") (some "Kappa") none none 0,
     JobData.mk (some "b") (some "Oni") none none 0] (by decide)

/-- C3 counterexample: enqueueing the same job id twice (`enqueue_job`
appends without deduplication) and then running a reconciliation pass whose
render attempts fail leaves the persisted queue holding two entries with the
same id. -/
theorem processQueue_dup_ids_counterexample :
    processQueue (fun _ => false)
        (enqueueJob (enqueueJob [] (JobData.mk (some "a") (some "Kappa") none none 0))
          (JobData.mk (some "a") (some "Kappa") none none 0)) =
      [JobData.mk (some "a") (some "Kappa") none none 1,
       JobData.mk (some "a") (some "Kappa") none none 1] ∧
    ¬ ((processQueue (fun _ => false)
        (enqueueJob (enqueueJob [] (JobData.mk (some "a") (some "Kappa") none none 0))
          (JobData.mk (some "a") (some "Kappa") none none 0))).map JobData.id).Nodup :=
  ⟨rfl, by decide⟩

/-- A decoded, print-ready raster image (result of `decode_image` followed by
`prepare_image`); its content is irrelevant to the control flow, so it is an
opaque tag. -/
structure Img where
  tag : Nat
  deriving DecidableEq, Repr

/-- One transmission to the printer inside `print_yokai`: a raw ESC/POS byte
sequence (`p._raw`), a CP932-encoded text chunk (`_raw_text`), or a raster
image (`p.image`). -/
inductive Cmd
  | raw (bytes : List Nat)
  | text (s : String)
  | image (img : Img)
  deriving DecidableEq, Repr

/-- Send commands to the device in order, stopping at the first transmission
that raises.  `dev c = false` models the device raising an exception on
command `c`.  Returns whether all commands went through, together with the
commands actually sent. -/
def runCmds (dev : Cmd → Bool) : List Cmd → Bool × List Cmd
  | [] => (true, [])
  | c :: cs =>
    if dev c then
      let r := runCmds dev cs
      (r.1, c :: r.2)
    else (false, [])

/-- The fixed command sequence of print_yokai lines 211-228: initialize,
Kanji mode, Shift_JIS, centered bold double-size header, then the rule and
the section title. -/
def preambleCmds : List Cmd :=
  [ .raw [0x1b, 0x40],
    .raw [0x1c, 0x26],
    .raw [0x1c, 0x43, 0x01],
    .raw [0x1b, 0x61, 0x01],
    .raw [0x1b, 0x45, 0x01],
    .raw [0x1d, 0x21, 0x11],
    .text "BAKEBAKE_XR\n",
    .raw [0x1d, 0x21, 0x00],
    .raw [0x1b, 0x45, 0x00],
    .text "━━━━━━━━━━━━━━━━━━\n",
    .text "【 観測記録 】\n\n" ]

/-- The command sequence of print_yokai lines 235-239, sent when the image
decoded: the raster, a newline, and the Kanji-mode re-enable. -/
def imageCmds (img : Img) : List Cmd :=
  [ .image img, .text "\n", .raw [0x1c, 0x26], .raw [0x1c, 0x43, 0x01] ]

/-- The command sequence of print_yokai lines 243-264: the name block, the
optional description block (`if desc:`), the footer and the paper cut. -/
def nameDescCmds (name desc : String) : List Cmd :=
  [ .raw [0x1b, 0x61, 0x01],
    .raw [0x1b, 0x45, 0x01],
    .raw [0x1d, 0x21, 0x11],
    .text (name ++ "\n"),
    .raw [0x1d, 0x21, 0x00],
    .raw [0x1b, 0x45, 0x00],
    .text "\n" ]
  ++ (if desc ≠ "" then [Cmd.raw [0x1b, 0x61, 0x00], Cmd.text (desc ++ "\n\n")] else [])
  ++ [ .raw [0x1b, 0x61, 0x01],
       .text "━━━━━━━━━━━━━━━━━━\n",
       .text "この記録は感熱紙に印刷されています。\n",
       .text "時間が経てば、この記憶も消えます。\n\n\n\n",
       .raw [0x1d, 0x56, 0x00] ]

/-- `print_yokai` (print_daemon.py lines 192-285), with the device and the
image decoder abstracted: `dev` says which transmissions succeed, `decode`
models `decode_image` + `prepare_image` (`none` = the image payload raised
during decoding).  Returns the success flag of the job together with the
commands that reached the device.  The image block (lines 231-241) sits in
its own try/except: a decode failure, or a device failure while sending the
image block, is logged and skipped, never failing the job.  A device failure
anywhere else aborts the job with `False`. -/
def printYokai (dev : Cmd → Bool) (decode : String → Option Img) (data : JobData) :
    Bool × List Cmd :=
  let name := data.yokai_name.getD "名無しの妖"
  let desc := data.yokai_desc.getD ""
  let r₁ := runCmds dev preambleCmds
  if r₁.1 then
    let imgTrace : List Cmd :=
      match data.yokai_image_b64 with
      | none => []
      | some b64 =>
        if b64 = "" then []
        else
          match decode b64 with
          | none => []
          | some img => (runCmds dev (imageCmds img)).2
    let r₂ := runCmds dev (nameDescCmds name desc)
    (r₂.1, r₁.2 ++ imgTrace ++ r₂.2)
  else (false, r₁.2)

theorem runCmds_of_dev_ok (dev : Cmd → Bool) (hdev : ∀ c, dev c = true)
    (cs : List Cmd) : runCmds dev cs = (true, cs) := by
  induction cs with
  | nil => rfl
  | cons c cs ih => simp [runCmds, hdev c, ih]

/-- The HTTP responses `handle_print` can return
(print_daemon.py lines 405-433). -/
inductive HResp
  | printed (yokai_name : String)
  | errNoBody
  | errNoName
  | errFailed
  deriving DecidableEq, Repr

/-- The HTTP status code attached to each response. -/
def HResp.code : HResp → Nat
  | .printed _ => 200
  | .errNoBody => 400
  | .errNoName => 400
  | .errFailed => 500

/-- Everything observable about one `handle_print` request: the response,
the durable queue afterwards, the jobs handed to `print_yokai`, and whether
a best-effort `printed = true` remote update was attempted. -/
structure HPResult where
  resp : HResp
  queue : List JobData
  rendered : List JobData
  ackAttempted : Bool
  deriving DecidableEq, Repr

/-- `handle_print` (print_daemon.py lines 405-433).  `data = none` models a
missing or empty JSON body (`if not data`).  `render d` is the outcome of
`print_yokai (data)`.  On success with a non-empty record id the handler
attempts the Supabase `printed = true` update; on failure it enqueues the
job for retry. -/
def handlePrint (render : JobData → Bool) (data : Option JobData)
    (q : List JobData) : HPResult :=
  match data with
  | none => ⟨.errNoBody, q, [], false⟩
  | some d =>
    let name := d.yokai_name.getD ""
    if name = "" then ⟨.errNoName, q, [], false⟩
    else if render d then
      ⟨.printed name, q, [d], (d.id.getD "") ≠ ""⟩
    else
      ⟨.errFailed, enqueueJob q d, [d], false⟩

/-- A `surveys` record as `_handle_online_job` reads it: the two dispatch
flags (absent keys read falsy) plus the job payload the record carries. -/
structure RemoteRecord where
  print_triggered : Bool
  printed : Bool
  job : JobData
  deriving Repr

/-- Everything observable about one `_handle_online_job` call: the jobs
handed to `print_yokai` and whether the `printed = true` remote update was
attempted. -/
structure OnlineResult where
  rendered : List JobData
  ackAttempted : Bool
  deriving DecidableEq, Repr

/-- `_handle_online_job` (print_daemon.py lines 353-363).  `record = none`
models a missing/empty record dict (`if not record`); a record that is not
`print_triggered` or is already `printed` is dropped without rendering. -/
def handleOnlineJob (render : JobData → Bool) (record : Option RemoteRecord) :
    OnlineResult :=
  match record with
  | none => ⟨[], false⟩
  | some r =>
    if !r.print_triggered || r.printed then ⟨[], false⟩
    else ⟨[r.job], render r.job⟩

/-- An entry of `_recent_jobs`: the dict
`{"id": record_id, "name": name, "time": ...}` appended at line 271. -/
structure RecentEntry where
  id : String
  name : String
  time : String
  deriving DecidableEq, Repr

/-- Lines 271-273 of print_daemon.py: append the completed job to
`_recent_jobs` and `pop (0)` when the length exceeds 20. -/
def recentAppend (recent : List RecentEntry) (e : RecentEntry) : List RecentEntry :=
  let r := recent ++ [e]
  if r.length > 20 then r.drop 1 else r

/-- `_recent_jobs [-10:]` served by the `/status` endpoint (line 402). -/
def statusRecent (recent : List RecentEntry) : List RecentEntry :=
  recent.drop (recent.length - 10)

/-- C4: a job whose image payload fails to decode still succeeds: the name
text still reaches the device, no raster is sent, `print_yokai` returns
`True` (given the device itself transmits fine), and a `handle_print`
request for the job leaves the durable queue unchanged — the job is not
queued for retry because of the damaged image. -/
theorem degraded_image_success (dev : Cmd → Bool) (decode : String → Option Img)
    (data : JobData) (q : List JobData) (s : String)
    (himg : data.yokai_image_b64 = some s) (hdec : decode s = none)
    (hdev : ∀ c, dev c = true) :
    (printYokai dev decode data).1 = true ∧
    Cmd.text (data.yokai_name.getD "名無しの妖" ++ "\n") ∈ (printYokai dev decode data).2 ∧
    (∀ i : Img, Cmd.image i ∉ (printYokai dev decode data).2) ∧
    (handlePrint (fun d => (printYokai dev decode d).1) (some data) q).queue = q := by
  have hrun := runCmds_of_dev_ok dev hdev
  have htrace : printYokai dev decode data =
      (true, preambleCmds ++ [] ++
        nameDescCmds (data.yokai_name.getD "名無しの妖") (data.yokai_desc.getD "")) := by
    simp only [printYokai, himg, hrun]
    by_cases hs : s = "" <;> simp [hs, hdec]
  refine ⟨by rw [htrace], ?_, ?_, ?_⟩
  · rw [htrace]
    simp [nameDescCmds]
  · intro i
    rw [htrace]
    by_cases hd : data.yokai_desc.getD "" = "" <;>
      simp [preambleCmds, nameDescCmds, hd]
  · simp only [handlePrint]
    by_cases hn : data.yokai_name.getD "" = ""
    · simp [hn]
    · simp [hn, htrace]

/-- C4 witness: a concrete job with an undecodable image succeeds, prints
its name, sends no raster, and is not enqueued. -/
theorem degraded_image_success_witness :
    (printYokai (fun _ => true) (fun _ => none)
        (JobData.mk (some "a") (some "Kappa") (some "desc") (some "xxx") 0)).1 = true ∧
    Cmd.text ((JobData.mk (some "a") (some "Kappa") (some "desc") (some "xxx") 0).yokai_name.getD
          "名無しの妖" ++ "\n") ∈
      (printYokai (fun _ => true) (fun _ => none)
        (JobData.mk (some "a") (some "Kappa") (some "desc") (some "xxx") 0)).2 ∧
    (∀ i : Img, Cmd.image i ∉
      (printYokai (fun _ => true) (fun _ => none)
        (JobData.mk (some "a") (some "Kappa") (some "desc") (some "xxx") 0)).2) ∧
    (handlePrint (fun d => (printYokai (fun _ => true) (fun _ => none) d).1)
        (some (JobData.mk (some "a") (some "Kappa") (some "desc") (some "xxx") 0)) []).queue = [] :=
  degraded_image_success (fun _ => true) (fun _ => none)
    (JobData.mk (some "a") (some "Kappa") (some "desc") (some "xxx") 0) [] "xxx" rfl rfl
    (fun _ => rfl)

/-- C5: a remote record whose `printed` flag is already true is silently
dropped by `_handle_online_job`: `print_yokai` is never invoked for it and
no remote update is attempted. -/
theorem completed_record_dropped (render : JobData → Bool) (r : RemoteRecord)
    (h : r.printed = true) :
    handleOnlineJob render (some r) = ⟨[], false⟩ := by
  simp [handleOnlineJob, h]

/-- C5 witness: a concrete already-printed record is dropped. -/
theorem completed_record_dropped_witness :
    handleOnlineJob (fun _ => true)
        (some (RemoteRecord.mk true true (JobData.mk (some "r1") (some "Kappa") none none 0))) =
      OnlineResult.mk [] false :=
  completed_record_dropped (fun _ => true)
    (RemoteRecord.mk true true (JobData.mk (some "r1") (some "Kappa") none none 0)) rfl

/-- C8: a `handle_print` request whose mandatory `yokai_name` field is
absent or empty (including a missing body) is rejected with a client error
(HTTP 400); `print_yokai` is never invoked and the durable queue is left
unchanged. -/
theorem intake_validation (render : JobData → Bool) (q : List JobData)
    (data : Option JobData)
    (h : data = none ∨ ∃ d, data = some d ∧ d.yokai_name.getD "" = "") :
    (handlePrint render data q).resp.code = 400 ∧
    (handlePrint render data q).rendered = [] ∧
    (handlePrint render data q).queue = q := by
  rcases h with rfl | ⟨d, rfl, hname⟩
  · exact ⟨rfl, rfl, rfl⟩
  · simp [handlePrint, hname, HResp.code]

/-- C8 witness: a request whose body carries no `yokai_name` is rejected
with 400, no render, queue untouched. -/
theorem intake_validation_witness :
    (handlePrint (fun _ => true)
        (some (JobData.mk (some "x") none none none 0)) []).resp.code = 400 ∧
    (handlePrint (fun _ => true)
        (some (JobData.mk (some "x") none none none 0)) []).rendered = [] ∧
    (handlePrint (fun _ => true)
        (some (JobData.mk (some "x") none none none 0)) []).queue = [] :=
  intake_validation (fun _ => true) [] (some (JobData.mk (some "x") none none none 0))
    (Or.inr ⟨JobData.mk (some "x") none none none 0, rfl, rfl⟩)

/-- C10: appending a completed job to a recent-jobs list of at most 20
entries keeps it at most 20 entries, evicting the oldest entry exactly when
the bound would be exceeded; and the `/status` endpoint serves at most the
10 most recent entries (a suffix of the list) whatever its length. -/
theorem recent_jobs_bounds (recent : List RecentEntry) (e : RecentEntry)
    (h : recent.length ≤ 20) :
    (recentAppend recent e).length ≤ 20 ∧
    (recent.length = 20 → recentAppend recent e = recent.drop 1 ++ [e]) ∧
    (∀ r : List RecentEntry,
      (statusRecent r).length ≤ 10 ∧ List.IsSuffix (statusRecent r) r) := by
  refine ⟨?_, ?_, ?_⟩
  · simp only [recentAppend]
    by_cases hgt : (recent ++ [e]).length > 20
    · rw [if_pos hgt]
      simp only [List.length_drop, List.length_append, List.length_singleton]
      omega
    · rw [if_neg hgt]
      simp only [List.length_append, List.length_singleton] at hgt ⊢
      omega
  · intro h20
    have : (recent ++ [e]).length > 20 := by simp [h20]
    simp only [recentAppend, if_pos this]
    exact List.drop_append_of_le_length (by omega)
  · intro r
    constructor
    · simp only [statusRecent, List.length_drop]
      omega
    · exact List.drop_suffix _ _

/-- C10 witness: instantiated at a full 20-entry list. -/
theorem recent_jobs_bounds_witness :
    (recentAppend (List.replicate 20 (RecentEntry.mk "a" "Kappa" "00:00:00"))
        (RecentEntry.mk "b" "Oni" "00:00:01")).length ≤ 20 ∧
    ((List.replicate 20 (RecentEntry.mk "a" "Kappa" "00:00:00")).length = 20 →
      recentAppend (List.replicate 20 (RecentEntry.mk "a" "Kappa" "00:00:00"))
          (RecentEntry.mk "b" "Oni" "00:00:01") =
        (List.replicate 20 (RecentEntry.mk "a" "Kappa" "00:00:00")).drop 1 ++
          [RecentEntry.mk "b" "Oni" "00:00:01"]) ∧
    (∀ r : List RecentEntry,
      (statusRecent r).length ≤ 10 ∧ List.IsSuffix (statusRecent r) r) :=
  recent_jobs_bounds (List.replicate 20 (RecentEntry.mk "a" "Kappa" "00:00:00"))
    (RecentEntry.mk "b" "Oni" "00:00:01") (by simp)

/-- One instruction of a thread executing `print_yokai`: acquire
`print_lock` (entry of the `with print_lock:` block, line 205), perform one
device transmission of the critical section, or give the lock back (exit of
the `with` block, normal or exceptional). -/
inductive PInstr
  | acquire
  | send (c : Cmd)
  | giveBack
  deriving DecidableEq, Repr

/-- `print_yokai` as a thread program: the `with print_lock:` block wraps
every device transmission of the job, so the program is the acquire, the
job's transmissions, then the lock hand-back. -/
def printProgram (cs : List Cmd) : List PInstr :=
  PInstr.acquire :: (cs.map PInstr.send ++ [PInstr.giveBack])

/-- A system state: which thread (if any) holds `print_lock`, and every
thread's position in its program.  Each thread models one concurrently
triggered `print_yokai` invocation, from any of the daemon's sources
(poll loop, realtime callback, HTTP intake, queue replay). -/
structure LockState where
  owner : Option Nat
  pc : Nat → Nat

/-- The state before any thread has run: the lock is free and every thread
is at the start of its program. -/
def initState : LockState := ⟨none, fun _ => 0⟩

/-- Interleaving semantics of `threading.Lock`: at each step one thread
executes the next instruction of its program.  `acquire` proceeds only when
no thread holds the lock, and makes the stepping thread the owner; the
hand-back at the end of the `with` block is performed by the owner and
frees the lock; a device transmission has no precondition of its own —
mutual exclusion of transmissions is proved, not assumed. -/
inductive LockStep (prog : Nat → List PInstr) : LockState → LockState → Prop
  | acquire (t : Nat) (s : LockState)
      (hi : (prog t)[s.pc t]? = some PInstr.acquire)
      (hfree : s.owner = none) :
      LockStep prog s ⟨some t, Function.update s.pc t (s.pc t + 1)⟩
  | send (t : Nat) (s : LockState) (c : Cmd)
      (hi : (prog t)[s.pc t]? = some (PInstr.send c)) :
      LockStep prog s ⟨s.owner, Function.update s.pc t (s.pc t + 1)⟩
  | giveBack (t : Nat) (s : LockState)
      (hi : (prog t)[s.pc t]? = some PInstr.giveBack)
      (hown : s.owner = some t) :
      LockStep prog s ⟨none, Function.update s.pc t (s.pc t + 1)⟩

/-- Thread `t` is inside its render critical section: it has executed the
acquire but not yet the hand-back. -/
def InCritical (cs : Nat → List Cmd) (s : LockState) (t : Nat) : Prop :=
  1 ≤ s.pc t ∧ s.pc t < (printProgram (cs t)).length

theorem printProgram_length (cs : List Cmd) :
    (printProgram cs).length = cs.length + 2 := by
  simp [printProgram]

theorem printProgram_getElem (cs : List Cmd) (i : Nat) (x : PInstr)
    (h : (printProgram cs)[i]? = some x) :
    (i = 0 ∧ x = PInstr.acquire) ∨
    (∃ c, x = PInstr.send c ∧ 1 ≤ i ∧ i ≤ cs.length) ∨
    (x = PInstr.giveBack ∧ i = cs.length + 1) := by
  match i with
  | 0 =>
    left
    simp only [printProgram, List.getElem?_cons_zero, Option.some.injEq] at h
    exact ⟨rfl, h.symm⟩
  | k + 1 =>
    right
    simp only [printProgram, List.getElem?_cons_succ] at h
    by_cases hk : k < cs.length
    · left
      rw [List.getElem?_append, List.length_map, if_pos hk, List.getElem?_map] at h
      cases hg : cs[k]? with
      | none => rw [hg] at h; cases h
      | some c =>
        rw [hg] at h
        refine ⟨c, ?_, by omega, by omega⟩
        simpa using h.symm
    · right
      rw [List.getElem?_append, List.length_map, if_neg hk] at h
      cases hke : k - cs.length with
      | zero =>
        rw [hke] at h
        simp only [List.getElem?_cons_zero, Option.some.injEq] at h
        exact ⟨h.symm, by omega⟩
      | succ m =>
        rw [hke] at h
        simp at h

/-- The lock invariant: any thread inside its critical section is the owner
of `print_lock`. -/
theorem lock_invariant (cs : Nat → List Cmd) (s : LockState)
    (hreach : Relation.ReflTransGen (LockStep (fun t => printProgram (cs t))) initState s) :
    ∀ t : Nat, InCritical cs s t → s.owner = some t := by
  induction hreach with
  | refl =>
    intro t ht
    exact absurd ht.1 (by simp [initState])
  | tail _ hstep ih =>
    rename_i s₁ s₂ _
    intro u hu
    cases hstep with
    | acquire t s hi hfree =>
      rcases printProgram_getElem _ _ _ hi with ⟨hpc, _⟩ | ⟨c, hc, _, _⟩ | ⟨hc, _⟩
      · by_cases hut : u = t
        · subst hut; rfl
        · have : InCritical cs s₁ u := by
            simpa [InCritical, Function.update_noteq hut] using hu
          rw [ih u this] at hfree
          cases hfree
      · cases hc
      · cases hc
    | send t s c hi =>
      rcases printProgram_getElem _ _ _ hi with ⟨_, hc⟩ | ⟨c', hc, h1, h2⟩ | ⟨hc, _⟩
      · cases hc
      · by_cases hut : u = t
        · subst hut
          exact ih u ⟨h1, by rw [printProgram_length]; omega⟩
        · exact ih u (by simpa [InCritical, Function.update_noteq hut] using hu)
      · cases hc
    | giveBack t s hi hown =>
      rcases printProgram_getElem _ _ _ hi with ⟨_, hc⟩ | ⟨c', hc, h1, h2⟩ | ⟨hc, hpc⟩
      · cases hc
      · cases hc
      · by_cases hut : u = t
        · subst hut
          have h2' : Function.update s₁.pc u (s₁.pc u + 1) u <
              (printProgram (cs u)).length := hu.2
          rw [Function.update_same, printProgram_length] at h2'
          omega
        · have : InCritical cs s₁ u := by
            simpa [InCritical, Function.update_noteq hut] using hu
          have h2 := ih u this
          rw [hown] at h2
          cases h2
          exact absurd rfl hut

/-- C6: the Device Lock serializes all render critical sections — in every
state reachable by interleaving any set of `print_yokai` invocations
(whatever source triggered each), no two distinct threads are inside their
render critical section at the same time. -/
theorem device_lock_mutual_exclusion (cs : Nat → List Cmd) (s : LockState)
    (hreach : Relation.ReflTransGen (LockStep (fun t => printProgram (cs t))) initState s)
    (t u : Nat) (ht : InCritical cs s t) (hu : InCritical cs s u) : t = u := by
  have h1 := lock_invariant cs s hreach t ht
  have h2 := lock_invariant cs s hreach u hu
  rw [h1] at h2
  exact Option.some.inj h2

/-- C6 witness: after thread 0 acquires the lock from the initial state, it
is in its critical section, and the theorem instantiates to that state. -/
theorem device_lock_mutual_exclusion_witness :
    Relation.ReflTransGen (LockStep (fun t => printProgram ((fun _ => []) t))) initState
      ⟨some 0, Function.update initState.pc 0 (initState.pc 0 + 1)⟩ ∧
    InCritical (fun _ => [])
      ⟨some 0, Function.update initState.pc 0 (initState.pc 0 + 1)⟩ 0 ∧
    (0 : Nat) = 0 := by
  have hreach : Relation.ReflTransGen (LockStep (fun t => printProgram ((fun _ => []) t)))
      initState ⟨some 0, Function.update initState.pc 0 (initState.pc 0 + 1)⟩ :=
    Relation.ReflTransGen.single (LockStep.acquire 0 initState (by rfl) rfl)
  have hcrit : InCritical (fun _ => [])
      ⟨some 0, Function.update initState.pc 0 (initState.pc 0 + 1)⟩ 0 := by
    constructor <;> simp [initState, printProgram_length]
  exact ⟨hreach, hcrit,
    device_lock_mutual_exclusion (fun _ => []) _ hreach 0 0 hcrit hcrit⟩

/-- A JSON scalar as it occurs in the records the daemon stores in
`print_queue.json` (`surveys` rows and local job dicts: strings, booleans,
integers, nulls).  Floating-point numbers do not occur in these records and
are outside the model. -/
inductive JVal
  | null
  | bool (b : Bool)
  | int (n : Int)
  | str (s : String)
  deriving DecidableEq, Repr

/-- A stored queue entry: a flat JSON object. -/
abbrev JObj := List (String × JVal)

/-- The queue document: a JSON array of entries, exactly the shape
`_save_queue` writes. -/
abbrev JQueue := List JObj

/-- Decimal/hexadecimal digit characters, lowercase as `json.dumps` emits
them. -/
def digitChar : Nat → Char
  | 0 => '0' | 1 => '1' | 2 => '2' | 3 => '3' | 4 => '4'
  | 5 => '5' | 6 => '6' | 7 => '7' | 8 => '8' | 9 => '9'
  | 10 => 'a' | 11 => 'b' | 12 => 'c' | 13 => 'd' | 14 => 'e'
  | _ => 'f'

/-- The decimal digits of `n`, most significant first (Python `str` of a
non-negative int). -/
def natDigits (n : Nat) : List Char :=
  if _h : n < 10 then [digitChar n]
  else natDigits (n / 10) ++ [digitChar (n % 10)]
  termination_by n
  decreasing_by exact Nat.div_lt_self (by omega) (by omega)

/-- Python `str` of an int, as `json.dumps` emits integers. -/
def encodeInt (n : Int) : List Char :=
  if n < 0 then '-' :: natDigits n.natAbs else natDigits n.toNat

/-- Modelled from the spec: the escape of one character inside a JSON
string, as the standard-library `json.dumps` (not part of this repository)
emits it with `ensure_ascii=False`: quote and backslash are escaped, the
five short control escapes are used for their characters, the remaining
control characters (code < 0x20) become `\u00XX`, everything else is
emitted verbatim. -/
def escapeChar (c : Char) : List Char :=
  if c = '"' then ['\\', '"']
  else if c = '\\' then ['\\', '\\']
  else if c = '\n' then ['\\', 'n']
  else if c = '\t' then ['\\', 't']
  else if c = '\r' then ['\\', 'r']
  else if c.toNat = 8 then ['\\', 'b']
  else if c.toNat = 12 then ['\\', 'f']
  else if c.toNat < 32 then
    ['\\', 'u', '0', '0', digitChar (c.toNat / 16), digitChar (c.toNat % 16)]
  else [c]

/-- A JSON string literal: quote, escaped characters, quote. -/
def encodeStringChars (s : List Char) : List Char :=
  '"' :: (s.flatMap escapeChar ++ ['"'])

/-- One JSON scalar as `json.dumps` emits it. -/
def encodeJVal : JVal → List Char
  | .null => "null".data
  | .bool true => "true".data
  | .bool false => "false".data
  | .int n => encodeInt n
  | .str s => encodeStringChars s.data

/-- One object member, `"key": value` (the default `": "` separator of
`json.dumps`). -/
def encodeField (kv : String × JVal) : List Char :=
  encodeStringChars kv.1.data ++ [':', ' '] ++ encodeJVal kv.2

/-- Join with the default `", "` item separator of `json.dumps`. -/
def sepJoin : List (List Char) → List Char
  | [] => []
  | x :: rest => x ++ rest.flatMap (fun y => [',', ' '] ++ y)

/-- One queue entry as a JSON object. -/
def encodeObj (o : JObj) : List Char :=
  '\x7b' :: (sepJoin (o.map encodeField) ++ ['\x7d'])

/-- The whole queue document as a JSON array. -/
def encodeQueue (q : JQueue) : List Char :=
  '[' :: (sepJoin (q.map encodeObj) ++ [']'])

/-- `json.dumps (queue, ensure_ascii=False)`: the exact content
`_save_queue` writes to `print_queue.json` (line 131). -/
def dumpsQueue (q : JQueue) : String :=
  String.mk (encodeQueue q)

/-- JSON whitespace (what `json.loads` skips between tokens). -/
def isWsChar (c : Char) : Bool :=
  c == ' ' || c == '\t' || c == '\n' || c == '\r'

/-- Drop leading JSON whitespace. -/
def skipWs : List Char → List Char
  | [] => []
  | c :: rest => if isWsChar c then skipWs rest else c :: rest

/-- Value of one hexadecimal digit character. -/
def parseHexDigit (c : Char) : Option Nat :=
  if 48 ≤ c.toNat ∧ c.toNat ≤ 57 then some (c.toNat - 48)
  else if 97 ≤ c.toNat ∧ c.toNat ≤ 102 then some (c.toNat - 87)
  else if 65 ≤ c.toNat ∧ c.toNat ≤ 70 then some (c.toNat - 55)
  else none

/-- The character denoted by a one-character JSON escape. -/
def simpleUnescape (e : Char) : Option Char :=
  if e = '"' then some '"'
  else if e = '\\' then some '\\'
  else if e = '/' then some '/'
  else if e = 'n' then some '\n'
  else if e = 't' then some '\t'
  else if e = 'r' then some '\r'
  else if e = 'b' then some (Char.ofNat 8)
  else if e = 'f' then some (Char.ofNat 12)
  else none

/-- The scanner state inside a JSON string body: plain characters, just
after a backslash, or inside a `\uXXXX` escape with the value collected so
far. -/
inductive EscMode
  | normal
  | esc
  | hex0
  | hex1 (a : Nat)
  | hex2 (a : Nat)
  | hex3 (a : Nat)

/-- Scan the body of a JSON string after the opening quote, one character
at a time, returning the decoded characters and the input after the closing
quote. -/
def psbAux : EscMode → List Char → Option (List Char × List Char)
  | _, [] => none
  | .normal, c :: rest =>
    if c = '"' then some ([], rest)
    else if c = '\\' then psbAux .esc rest
    else (psbAux .normal rest).map (fun p => (c :: p.1, p.2))
  | .esc, c :: rest =>
    if c = 'u' then psbAux .hex0 rest
    else
      match simpleUnescape c with
      | some ch => (psbAux .normal rest).map (fun p => (ch :: p.1, p.2))
      | none => none
  | .hex0, c :: rest =>
    match parseHexDigit c with
    | some a => psbAux (.hex1 a) rest
    | none => none
  | .hex1 a, c :: rest =>
    match parseHexDigit c with
    | some b => psbAux (.hex2 (a * 16 + b)) rest
    | none => none
  | .hex2 a, c :: rest =>
    match parseHexDigit c with
    | some b => psbAux (.hex3 (a * 16 + b)) rest
    | none => none
  | .hex3 a, c :: rest =>
    match parseHexDigit c with
    | some b => (psbAux .normal rest).map (fun p => (Char.ofNat (a * 16 + b) :: p.1, p.2))
    | none => none

/-- Parse the body of a JSON string after the opening quote. -/
def parseStringBody : List Char → Option (List Char × List Char) :=
  psbAux .normal

/-- Is this character a decimal digit. -/
def isDigitChar (c : Char) : Bool :=
  decide (48 ≤ c.toNat) && decide (c.toNat ≤ 57)

/-- Consume a maximal run of digits, accumulating their value. -/
def parseDigitsAux (acc : Nat) : List Char → Nat × List Char
  | [] => (acc, [])
  | c :: rest =>
    if isDigitChar c then parseDigitsAux (acc * 10 + (c.toNat - 48)) rest
    else (acc, c :: rest)

/-- Parse a non-empty digit run. -/
def parseNat : List Char → Option (Nat × List Char)
  | [] => none
  | c :: rest =>
    if isDigitChar c then some (parseDigitsAux (c.toNat - 48) rest)
    else none

/-- Parse a JSON integer (optional minus sign, then digits). -/
def parseInt : List Char → Option (Int × List Char)
  | [] => none
  | c :: rest =>
    if c = '-' then (parseNat rest).map (fun p => (-(p.1 : Int), p.2))
    else (parseNat (c :: rest)).map (fun p => ((p.1 : Int), p.2))

/-- Parse one JSON scalar. -/
def parseJVal : List Char → Option (JVal × List Char)
  | [] => none
  | c :: rest =>
    if c = '"' then
      match parseStringBody rest with
      | some (cs, r) => some (.str (String.mk cs), r)
      | none => none
    else if c = 'n' then
      match rest with
      | u :: l1 :: l2 :: r =>
        if u = 'u' ∧ l1 = 'l' ∧ l2 = 'l' then some (.null, r) else none
      | _ => none
    else if c = 't' then
      match rest with
      | r1 :: u :: e :: r =>
        if r1 = 'r' ∧ u = 'u' ∧ e = 'e' then some (.bool true, r) else none
      | _ => none
    else if c = 'f' then
      match rest with
      | a :: l1 :: s :: e :: r =>
        if a = 'a' ∧ l1 = 'l' ∧ s = 's' ∧ e = 'e' then some (.bool false, r) else none
      | _ => none
    else
      match parseInt (c :: rest) with
      | some (n, r) => some (.int n, r)
      | none => none

/-- Parse one object member `"key": value` with optional whitespace around
the colon. -/
def parseField (l : List Char) : Option ((String × JVal) × List Char) :=
  match l with
  | [] => none
  | c :: rest =>
    if c = '"' then
      match parseStringBody rest with
      | some (k, r1) =>
        match skipWs r1 with
        | c2 :: r3 =>
          if c2 = ':' then
            match parseJVal (skipWs r3) with
            | some (v, r4) => some ((String.mk k, v), r4)
            | none => none
          else none
        | [] => none
      | none => none
    else none

/-- Parse the members of a non-empty object, positioned at the first
member; returns the members and the input after the closing brace.  `fuel`
bounds the number of members (one unit per member); the callers pass the
input length, which always suffices for a parsable document. -/
def parseFieldsLoop : Nat → List Char → Option (JObj × List Char)
  | 0, _ => none
  | fuel + 1, l =>
    match parseField l with
    | some (kv, r) =>
      match skipWs r with
      | c :: r2 =>
        if c = ',' then
          match parseFieldsLoop fuel (skipWs r2) with
          | some (kvs, r3) => some (kv :: kvs, r3)
          | none => none
        else if c = '\x7d' then some ([kv], r2)
        else none
      | [] => none
    | none => none

/-- Parse one JSON object (a queue entry). -/
def parseObj (fuel : Nat) (l : List Char) : Option (JObj × List Char) :=
  match l with
  | [] => none
  | c :: rest =>
    if c = '\x7b' then
      match skipWs rest with
      | c2 :: r2 => if c2 = '\x7d' then some ([], r2) else parseFieldsLoop fuel (skipWs rest)
      | [] => none
    else none

/-- Parse the entries of a non-empty array of objects, positioned at the
first entry; returns the entries and the input after the closing bracket.
`ffuel` bounds the member count of each object, `fuel` the entry count. -/
def parseEntriesLoop (ffuel : Nat) : Nat → List Char → Option (JQueue × List Char)
  | 0, _ => none
  | fuel + 1, l =>
    match parseObj ffuel l with
    | some (o, r) =>
      match skipWs r with
      | c :: r2 =>
        if c = ',' then
          match parseEntriesLoop ffuel fuel (skipWs r2) with
          | some (os, r3) => some (o :: os, r3)
          | none => none
        else if c = ']' then some ([o], r2)
        else none
      | [] => none
    | none => none

/-- Modelled from the spec: the standard-library `json.loads` used by
`_load_queue` (not part of this repository), restricted to the grammar of
the documents `_save_queue` writes — an array of flat records.  Any
document outside this grammar maps to `none`, the exception branch of
`_load_queue`. -/
def loadsQueue (s : String) : Option JQueue :=
  let fuel := s.data.length + 1
  match skipWs s.data with
  | [] => none
  | c :: rest =>
    if c = '[' then
      match skipWs rest with
      | [] => none
      | c2 :: r2 =>
        if c2 = ']' then if (skipWs r2).isEmpty then some [] else none
        else
          match parseEntriesLoop fuel fuel (skipWs rest) with
          | some (q, r3) => if (skipWs r3).isEmpty then some q else none
          | none => none
    else none

/-- The state of `print_queue.json` as `_load_queue` can encounter it. -/
inductive QueueFile
  | missing
  | unreadable
  | content (s : String)

/-- `_load_queue` (print_daemon.py lines 119-126): a missing file is an
empty queue; a file that cannot be read or whose content cannot be parsed
raises inside the `try`, is logged, and yields the empty queue. -/
def loadQueue : QueueFile → JQueue
  | .missing => []
  | .unreadable => []
  | .content s =>
    match loadsQueue s with
    | some q => q
    | none => []

/-- `_save_queue` (print_daemon.py lines 128-133): write the serialized
queue as the new file content. -/
def saveQueue (q : JQueue) : QueueFile :=
  .content (dumpsQueue q)

/-- `enqueue_job` at the storage level: load, append, save (lines
135-140). -/
def enqueueEntry (q : JQueue) (e : JObj) : JQueue :=
  q ++ [e]

theorem skipWs_cons_false {c : Char} (h : isWsChar c = false) (l : List Char) :
    skipWs (c :: l) = c :: l := by
  simp [skipWs, h]

theorem digitChar_toNat {n : Nat} (h : n < 10) : (digitChar n).toNat = 48 + n := by
  interval_cases n <;> rfl

theorem parseHexDigit_digitChar {n : Nat} (h : n < 16) :
    parseHexDigit (digitChar n) = some n := by
  interval_cases n <;> rfl

theorem parseStringBody_escape (s rest : List Char) :
    parseStringBody (s.flatMap escapeChar ++ '"' :: rest) = some (s, rest) := by
  induction s with
  | nil => rfl
  | cons c s ih =>
    rw [List.flatMap_cons, List.append_assoc]
    by_cases h1 : c = '"'
    · subst h1
      have e : parseStringBody (escapeChar '"' ++ (s.flatMap escapeChar ++ '"' :: rest)) =
          (parseStringBody (s.flatMap escapeChar ++ '"' :: rest)).map
            (fun p => ('"' :: p.1, p.2)) := rfl
      rw [e, ih]
      rfl
    · by_cases h2 : c = '\\'
      · subst h2
        have e : parseStringBody (escapeChar '\\' ++ (s.flatMap escapeChar ++ '"' :: rest)) =
            (parseStringBody (s.flatMap escapeChar ++ '"' :: rest)).map
              (fun p => ('\\' :: p.1, p.2)) := rfl
        rw [e, ih]
        rfl
      · by_cases h3 : c = '\n'
        · subst h3
          have e : parseStringBody (escapeChar '\n' ++ (s.flatMap escapeChar ++ '"' :: rest)) =
              (parseStringBody (s.flatMap escapeChar ++ '"' :: rest)).map
                (fun p => ('\n' :: p.1, p.2)) := rfl
          rw [e, ih]
          rfl
        · by_cases h4 : c = '\t'
          · subst h4
            have e : parseStringBody (escapeChar '\t' ++ (s.flatMap escapeChar ++ '"' :: rest)) =
                (parseStringBody (s.flatMap escapeChar ++ '"' :: rest)).map
                  (fun p => ('\t' :: p.1, p.2)) := rfl
            rw [e, ih]
            rfl
          · by_cases h5 : c = '\r'
            · subst h5
              have e : parseStringBody (escapeChar '\r' ++ (s.flatMap escapeChar ++ '"' :: rest)) =
                  (parseStringBody (s.flatMap escapeChar ++ '"' :: rest)).map
                    (fun p => ('\r' :: p.1, p.2)) := rfl
              rw [e, ih]
              rfl
            · by_cases h6 : c.toNat = 8
              · rw [escapeChar, if_neg h1, if_neg h2, if_neg h3, if_neg h4, if_neg h5,
                  if_pos h6]
                have e : parseStringBody (['\\', 'b'] ++ (s.flatMap escapeChar ++ '"' :: rest)) =
                    (parseStringBody (s.flatMap escapeChar ++ '"' :: rest)).map
                      (fun p => (Char.ofNat 8 :: p.1, p.2)) := rfl
                rw [e, ih]
                show some (Char.ofNat 8 :: s, rest) = some (c :: s, rest)
                rw [← h6, Char.ofNat_toNat]
              · by_cases h7 : c.toNat = 12
                · rw [escapeChar, if_neg h1, if_neg h2, if_neg h3, if_neg h4, if_neg h5,
                    if_neg h6, if_pos h7]
                  have e : parseStringBody (['\\', 'f'] ++ (s.flatMap escapeChar ++ '"' :: rest)) =
                      (parseStringBody (s.flatMap escapeChar ++ '"' :: rest)).map
                        (fun p => (Char.ofNat 12 :: p.1, p.2)) := rfl
                  rw [e, ih]
                  show some (Char.ofNat 12 :: s, rest) = some (c :: s, rest)
                  rw [← h7, Char.ofNat_toNat]
                · by_cases h8 : c.toNat < 32
                  · rw [escapeChar, if_neg h1, if_neg h2, if_neg h3, if_neg h4, if_neg h5,
                      if_neg h6, if_neg h7, if_pos h8]
                    have e : parseStringBody
                        (['\\', 'u', '0', '0', digitChar (c.toNat / 16), digitChar (c.toNat % 16)] ++
                          (s.flatMap escapeChar ++ '"' :: rest)) =
                        psbAux (.hex2 0)
                          (digitChar (c.toNat / 16) :: digitChar (c.toNat % 16) ::
                            (s.flatMap escapeChar ++ '"' :: rest)) := rfl
                    rw [e]
                    have e2 : psbAux (.hex2 0)
                        (digitChar (c.toNat / 16) :: digitChar (c.toNat % 16) ::
                          (s.flatMap escapeChar ++ '"' :: rest)) =
                        psbAux (.hex3 (0 * 16 + c.toNat / 16))
                          (digitChar (c.toNat % 16) :: (s.flatMap escapeChar ++ '"' :: rest)) := by
                      simp only [psbAux, parseHexDigit_digitChar (by omega : c.toNat / 16 < 16)]
                    rw [e2]
                    have e3 : psbAux (.hex3 (0 * 16 + c.toNat / 16))
                        (digitChar (c.toNat % 16) :: (s.flatMap escapeChar ++ '"' :: rest)) =
                        (psbAux .normal (s.flatMap escapeChar ++ '"' :: rest)).map
                          (fun p =>
                            (Char.ofNat ((0 * 16 + c.toNat / 16) * 16 + c.toNat % 16) :: p.1,
                              p.2)) := by
                      simp only [psbAux, parseHexDigit_digitChar (by omega : c.toNat % 16 < 16)]
                    rw [e3]
                    have hval : (0 * 16 + c.toNat / 16) * 16 + c.toNat % 16 = c.toNat := by omega
                    rw [show psbAux EscMode.normal (s.flatMap escapeChar ++ '"' :: rest) =
                      parseStringBody (s.flatMap escapeChar ++ '"' :: rest) from rfl, ih]
                    show some (Char.ofNat ((0 * 16 + c.toNat / 16) * 16 + c.toNat % 16) :: s,
                      rest) = some (c :: s, rest)
                    rw [hval, Char.ofNat_toNat]
                  · rw [escapeChar, if_neg h1, if_neg h2, if_neg h3, if_neg h4, if_neg h5,
                      if_neg h6, if_neg h7, if_neg h8]
                    have e : parseStringBody (([c] : List Char) ++
                        (s.flatMap escapeChar ++ '"' :: rest)) =
                        if c = '"' then some ([], s.flatMap escapeChar ++ '"' :: rest)
                        else if c = '\\' then psbAux .esc (s.flatMap escapeChar ++ '"' :: rest)
                        else (psbAux .normal (s.flatMap escapeChar ++ '"' :: rest)).map
                          (fun p => (c :: p.1, p.2)) := rfl
                    rw [e, if_neg h1, if_neg h2,
                      show psbAux EscMode.normal (s.flatMap escapeChar ++ '"' :: rest) =
                        parseStringBody (s.flatMap escapeChar ++ '"' :: rest) from rfl,
                      ih]
                    rfl

theorem natDigits_spec (n : Nat) :
    natDigits n ≠ [] ∧ ∀ c ∈ natDigits n, 48 ≤ c.toNat ∧ c.toNat ≤ 57 := by
  induction n using Nat.strong_induction_on with
  | _ n ih =>
    rw [natDigits.eq_def]
    by_cases h : n < 10
    · rw [dif_pos h]
      refine ⟨by simp, ?_⟩
      intro c hc
      simp only [List.mem_singleton] at hc
      subst hc
      rw [digitChar_toNat h]
      omega
    · rw [dif_neg h]
      have hd := ih (n / 10) (Nat.div_lt_self (by omega) (by omega))
      refine ⟨by simp, ?_⟩
      intro c hc
      rcases List.mem_append.mp hc with hc | hc
      · exact hd.2 c hc
      · simp only [List.mem_singleton] at hc
        subst hc
        rw [digitChar_toNat (by omega : n % 10 < 10)]
        omega

theorem foldl_natDigits (n : Nat) : ∀ acc : Nat,
    (natDigits n).foldl (fun a c => a * 10 + (c.toNat - 48)) acc =
      acc * 10 ^ (natDigits n).length + n := by
  induction n using Nat.strong_induction_on with
  | _ n ih =>
    intro acc
    rw [natDigits.eq_def]
    by_cases h : n < 10
    · rw [dif_pos h]
      simp only [List.foldl_cons, List.foldl_nil, List.length_singleton, pow_one,
        digitChar_toNat h]
      omega
    · rw [dif_neg h]
      rw [List.foldl_append, ih (n / 10) (Nat.div_lt_self (by omega) (by omega))]
      simp only [List.foldl_cons, List.foldl_nil, List.length_append, List.length_singleton]
      rw [digitChar_toNat (by omega : n % 10 < 10), pow_succ]
      have hmod : 48 + n % 10 - 48 = n % 10 := by omega
      rw [hmod]
      calc (acc * 10 ^ (natDigits (n / 10)).length + n / 10) * 10 + n % 10
          = acc * (10 ^ (natDigits (n / 10)).length * 10) + (10 * (n / 10) + n % 10) := by
            ring
        _ = acc * (10 ^ (natDigits (n / 10)).length * 10) + n := by rw [Nat.div_add_mod]

/-- Does the input not begin with a decimal digit (so a digit run ends
here). -/
def headNotDigit : List Char → Bool
  | [] => true
  | c :: _ => !isDigitChar c

theorem parseDigitsAux_digits (ds : List Char)
    (hds : ∀ c ∈ ds, 48 ≤ c.toNat ∧ c.toNat ≤ 57) :
    ∀ (acc : Nat) (rest : List Char), headNotDigit rest = true →
      parseDigitsAux acc (ds ++ rest) =
        (ds.foldl (fun a c => a * 10 + (c.toNat - 48)) acc, rest) := by
  induction ds with
  | nil =>
    intro acc rest hrest
    cases rest with
    | nil => rfl
    | cons c r =>
      simp only [headNotDigit, Bool.not_eq_true'] at hrest
      simp [parseDigitsAux, hrest]
  | cons c ds ih =>
    intro acc rest hrest
    have hc := hds c (List.mem_cons_self _ _)
    have hdig : isDigitChar c = true := by
      simp only [isDigitChar, Bool.and_eq_true, decide_eq_true_eq]
      omega
    simp only [List.cons_append, parseDigitsAux, hdig, if_true, List.foldl_cons]
    exact ih (fun x hx => hds x (List.mem_cons_of_mem _ hx)) _ rest hrest

theorem parseNat_natDigits (n : Nat) (rest : List Char)
    (hrest : headNotDigit rest = true) :
    parseNat (natDigits n ++ rest) = some (n, rest) := by
  have hspec := natDigits_spec n
  obtain ⟨d, tl, hnd⟩ : ∃ d tl, natDigits n = d :: tl := by
    cases h : natDigits n with
    | nil => exact absurd h hspec.1
    | cons d tl => exact ⟨d, tl, rfl⟩
  have hd : 48 ≤ d.toNat ∧ d.toNat ≤ 57 :=
    hspec.2 d (by rw [hnd]; exact List.mem_cons_self _ _)
  have hdig : isDigitChar d = true := by
    simp only [isDigitChar, Bool.and_eq_true, decide_eq_true_eq]
    omega
  rw [hnd, List.cons_append]
  simp only [parseNat, hdig, if_true]
  have htl : ∀ c ∈ tl, 48 ≤ c.toNat ∧ c.toNat ≤ 57 := fun c hc =>
    hspec.2 c (by rw [hnd]; exact List.mem_cons_of_mem _ hc)
  rw [parseDigitsAux_digits tl htl _ rest hrest]
  have hval : tl.foldl (fun a c => a * 10 + (c.toNat - 48)) (d.toNat - 48) = n := by
    have h0 := foldl_natDigits n 0
    rw [hnd, List.foldl_cons] at h0
    simpa using h0
  rw [hval]

theorem parseInt_encodeInt (n : Int) (rest : List Char)
    (hrest : headNotDigit rest = true) :
    parseInt (encodeInt n ++ rest) = some (n, rest) := by
  by_cases h : n < 0
  · rw [encodeInt, if_pos h, List.cons_append]
    simp only [parseInt, if_pos rfl]
    rw [parseNat_natDigits _ _ hrest]
    show some (-(n.natAbs : Int), rest) = some (n, rest)
    have he : -(n.natAbs : Int) = n := by omega
    rw [he]
  · rw [encodeInt, if_neg h]
    have hspec := natDigits_spec n.toNat
    obtain ⟨d, tl, hnd⟩ : ∃ d tl, natDigits n.toNat = d :: tl := by
      cases hh : natDigits n.toNat with
      | nil => exact absurd hh hspec.1
      | cons d tl => exact ⟨d, tl, rfl⟩
    have hd : 48 ≤ d.toNat ∧ d.toNat ≤ 57 :=
      hspec.2 d (by rw [hnd]; exact List.mem_cons_self _ _)
    have hneg : d ≠ '-' := by
      intro he
      rw [he] at hd
      exact absurd hd (by decide)
    rw [hnd, List.cons_append]
    simp only [parseInt, if_neg hneg]
    rw [show d :: (tl ++ rest) = (d :: tl) ++ rest from rfl, ← hnd,
      parseNat_natDigits _ _ hrest]
    show some ((n.toNat : Int), rest) = some (n, rest)
    have he : (n.toNat : Int) = n := by omega
    rw [he]

theorem encodeInt_head (n : Int) :
    ∃ d tl, encodeInt n = d :: tl ∧ (d.toNat = 45 ∨ (48 ≤ d.toNat ∧ d.toNat ≤ 57)) := by
  by_cases h : n < 0
  · exact ⟨'-', natDigits n.natAbs, by rw [encodeInt, if_pos h], Or.inl rfl⟩
  · have hspec := natDigits_spec n.toNat
    obtain ⟨d, tl, hnd⟩ : ∃ d tl, natDigits n.toNat = d :: tl := by
      cases hh : natDigits n.toNat with
      | nil => exact absurd hh hspec.1
      | cons d tl => exact ⟨d, tl, rfl⟩
    exact ⟨d, tl, by rw [encodeInt, if_neg h, hnd],
      Or.inr (hspec.2 d (by rw [hnd]; exact List.mem_cons_self _ _))⟩

theorem parseJVal_encode (v : JVal) (rest : List Char)
    (hrest : headNotDigit rest = true) :
    parseJVal (encodeJVal v ++ rest) = some (v, rest) := by
  cases v with
  | null => rfl
  | bool b => cases b <;> rfl
  | str s =>
    have e : encodeJVal (.str s) ++ rest =
        '"' :: (s.data.flatMap escapeChar ++ '"' :: rest) := by
      simp [encodeJVal, encodeStringChars]
    rw [e]
    simp only [parseJVal, eq_self_iff_true, if_true]
    rw [parseStringBody_escape]
  | int n =>
    obtain ⟨d, tl, hdt, hd⟩ := encodeInt_head n
    rw [encodeJVal, hdt, List.cons_append]
    have hq : d ≠ '"' := by intro he; rw [he] at hd; exact absurd hd (by decide)
    have hn : d ≠ 'n' := by intro he; rw [he] at hd; exact absurd hd (by decide)
    have ht : d ≠ 't' := by intro he; rw [he] at hd; exact absurd hd (by decide)
    have hf : d ≠ 'f' := by intro he; rw [he] at hd; exact absurd hd (by decide)
    simp only [parseJVal, if_neg hq, if_neg hn, if_neg ht, if_neg hf]
    rw [show d :: (tl ++ rest) = (d :: tl) ++ rest from rfl, ← hdt,
      parseInt_encodeInt n rest hrest]

/-- Does the input not begin with JSON whitespace. -/
def headNotWs : List Char → Bool
  | [] => true
  | c :: _ => !isWsChar c

theorem skipWs_eq_self {l : List Char} (h : headNotWs l = true) : skipWs l = l := by
  cases l with
  | nil => rfl
  | cons c tl =>
    simp only [headNotWs, Bool.not_eq_true'] at h
    simp [skipWs, h]

theorem parseField_encode (kv : String × JVal) (rest : List Char)
    (hrest : headNotDigit rest = true) :
    parseField (encodeField kv ++ rest) = some (kv, rest) := by
  obtain ⟨k, v⟩ := kv
  have e : encodeField (k, v) ++ rest =
      '"' :: (k.data.flatMap escapeChar ++ '"' :: (':' :: ' ' :: (encodeJVal v ++ rest))) := by
    simp [encodeField, encodeStringChars]
  rw [e]
  simp only [parseField, eq_self_iff_true, if_true]
  rw [parseStringBody_escape]
  have hv : headNotWs (encodeJVal v ++ rest) = true := by
    cases v with
    | null => rfl
    | bool b => cases b <;> rfl
    | str s => rfl
    | int n =>
      obtain ⟨d, tl, hdt, hd⟩ := encodeInt_head n
      rw [encodeJVal, hdt, List.cons_append]
      simp only [headNotWs, Bool.not_eq_true', isWsChar, Bool.or_eq_false_iff,
        beq_eq_false_iff_ne, ne_eq]
      refine ⟨⟨⟨?_, ?_⟩, ?_⟩, ?_⟩ <;> intro he <;> rw [he] at hd <;> exact absurd hd (by decide)
  simp [skipWs, isWsChar, skipWs_eq_self hv, parseJVal_encode v rest hrest]


theorem parseFieldsLoop_encode (kvs : List (String × JVal)) :
    ∀ (fuel : Nat) (kv : String × JVal) (rest : List Char),
      kvs.length < fuel →
      parseFieldsLoop fuel
        (encodeField kv ++
          ((kvs.map encodeField).flatMap (fun y => [',', ' '] ++ y) ++ '\x7d' :: rest)) =
        some (kv :: kvs, rest) := by
  induction kvs with
  | nil =>
    intro fuel kv rest hfuel
    cases fuel with
    | zero => omega
    | succ f =>
      simp only [List.map_nil, List.flatMap_nil, List.nil_append, parseFieldsLoop]
      rw [parseField_encode kv ('\x7d' :: rest) rfl]
      rfl
  | cons kv2 kvs ih =>
    intro fuel kv rest hfuel
    cases fuel with
    | zero => omega
    | succ f =>
      have e : (((kv2 :: kvs).map encodeField).flatMap (fun y => [',', ' '] ++ y) ++
            '\x7d' :: rest) =
          ',' :: ' ' :: (encodeField kv2 ++
            ((kvs.map encodeField).flatMap (fun y => [',', ' '] ++ y) ++ '\x7d' :: rest)) := by
        simp
      rw [e]
      simp only [parseFieldsLoop]
      rw [parseField_encode kv
        (',' :: ' ' :: (encodeField kv2 ++
          ((kvs.map encodeField).flatMap (fun y => [',', ' '] ++ y) ++ '\x7d' :: rest))) rfl]
      have hkv2 : headNotWs (encodeField kv2 ++
          ((kvs.map encodeField).flatMap (fun y => [',', ' '] ++ y) ++ '\x7d' :: rest)) =
          true := by
        obtain ⟨k, v⟩ := kv2
        rfl
      show (match parseFieldsLoop f
          (skipWs (encodeField kv2 ++
            ((kvs.map encodeField).flatMap (fun y => [',', ' '] ++ y) ++ '\x7d' :: rest))) with
        | some (kvs2, r3) => some (kv :: kvs2, r3)
        | none => none) = some (kv :: kv2 :: kvs, rest)
      simp only [List.length_cons] at hfuel
      rw [skipWs_eq_self hkv2, ih f kv2 rest (by omega)]

theorem parseObj_encode (o : JObj) (fuel : Nat) (rest : List Char)
    (hfuel : o.length ≤ fuel) :
    parseObj fuel (encodeObj o ++ rest) = some (o, rest) := by
  cases o with
  | nil => rfl
  | cons kv kvs =>
    have e : encodeObj (kv :: kvs) ++ rest =
        '\x7b' :: (encodeField kv ++
          ((kvs.map encodeField).flatMap (fun y => [',', ' '] ++ y) ++ '\x7d' :: rest)) := by
      simp [encodeObj, sepJoin]
    rw [e]
    simp only [parseObj, eq_self_iff_true, if_true]
    have hhead : headNotWs (encodeField kv ++
        ((kvs.map encodeField).flatMap (fun y => [',', ' '] ++ y) ++ '\x7d' :: rest)) = true := by
      obtain ⟨k, v⟩ := kv
      rfl
    obtain ⟨tl0, hcons⟩ : ∃ tl0,
        encodeField kv ++
          ((kvs.map encodeField).flatMap (fun y => [',', ' '] ++ y) ++ '\x7d' :: rest) =
        '"' :: tl0 := by
      obtain ⟨k, v⟩ := kv
      exact ⟨_, rfl⟩
    rw [skipWs_eq_self hhead, hcons]
    simp only [show (('"' : Char) = '\x7d') = False by simp, if_false]
    rw [← hcons]
    simp only [List.length_cons] at hfuel
    exact parseFieldsLoop_encode kvs fuel kv rest (by omega)

theorem parseEntriesLoop_encode (os : List JObj) :
    ∀ (ffuel fuel : Nat) (o : JObj) (rest : List Char),
      os.length < fuel →
      (∀ x, x ∈ o :: os → x.length ≤ ffuel) →
      parseEntriesLoop ffuel fuel
        (encodeObj o ++
          ((os.map encodeObj).flatMap (fun y => [',', ' '] ++ y) ++ ']' :: rest)) =
        some (o :: os, rest) := by
  induction os with
  | nil =>
    intro ffuel fuel o rest hfuel hlen
    cases fuel with
    | zero => omega
    | succ f =>
      simp only [List.map_nil, List.flatMap_nil, List.nil_append, parseEntriesLoop]
      rw [parseObj_encode o ffuel (']' :: rest) (hlen o (List.mem_cons_self _ _))]
      rfl
  | cons o2 os ih =>
    intro ffuel fuel o rest hfuel hlen
    cases fuel with
    | zero => omega
    | succ f =>
      have e : (((o2 :: os).map encodeObj).flatMap (fun y => [',', ' '] ++ y) ++ ']' :: rest) =
          ',' :: ' ' :: (encodeObj o2 ++
            ((os.map encodeObj).flatMap (fun y => [',', ' '] ++ y) ++ ']' :: rest)) := by
        simp
      rw [e]
      simp only [parseEntriesLoop]
      rw [parseObj_encode o ffuel
        (',' :: ' ' :: (encodeObj o2 ++
          ((os.map encodeObj).flatMap (fun y => [',', ' '] ++ y) ++ ']' :: rest)))
        (hlen o (List.mem_cons_self _ _))]
      have ho2 : headNotWs (encodeObj o2 ++
          ((os.map encodeObj).flatMap (fun y => [',', ' '] ++ y) ++ ']' :: rest)) = true := rfl
      show (match parseEntriesLoop ffuel f
          (skipWs (encodeObj o2 ++
            ((os.map encodeObj).flatMap (fun y => [',', ' '] ++ y) ++ ']' :: rest))) with
        | some (os2, r3) => some (o :: os2, r3)
        | none => none) = some (o :: o2 :: os, rest)
      simp only [List.length_cons] at hfuel
      rw [skipWs_eq_self ho2,
        ih ffuel f o2 rest (by omega) (fun x hx => hlen x (List.mem_cons_of_mem _ hx))]

theorem sepJoin_le_flatMap (xs : List (List Char)) :
    (sepJoin xs).length ≤ (xs.flatMap (fun y => [',', ' '] ++ y)).length := by
  cases xs with
  | nil => simp [sepJoin]
  | cons x r =>
    simp only [sepJoin, List.flatMap_cons, List.length_append]
    omega

theorem mem_le_sepJoin (xs : List (List Char)) (x : List Char) (h : x ∈ xs) :
    x.length ≤ (sepJoin xs).length := by
  induction xs with
  | nil => cases h
  | cons y r ih =>
    rcases List.mem_cons.mp h with rfl | hr
    · simp [sepJoin]
    · have h1 := ih hr
      have h2 := sepJoin_le_flatMap r
      simp only [sepJoin, List.length_append]
      omega

theorem count_le_sepJoin (xs : List (List Char)) (h : ∀ x ∈ xs, 1 ≤ x.length) :
    xs.length ≤ (sepJoin xs).length := by
  induction xs with
  | nil => simp [sepJoin]
  | cons y r ih =>
    have h1 := ih (fun x hx => h x (List.mem_cons_of_mem _ hx))
    have h2 := sepJoin_le_flatMap r
    have h3 := h y (List.mem_cons_self _ _)
    simp only [sepJoin, List.length_append, List.length_cons]
    omega

theorem one_le_encodeField (kv : String × JVal) : 1 ≤ (encodeField kv).length := by
  obtain ⟨k, v⟩ := kv
  obtain ⟨tl, htl⟩ : ∃ tl, encodeField (k, v) = '"' :: tl := ⟨_, rfl⟩
  rw [htl]
  simp

theorem length_le_encodeObj (o : JObj) : o.length ≤ (encodeObj o).length := by
  have h := count_le_sepJoin (o.map encodeField)
    (by intro x hx; obtain ⟨kv, _, rfl⟩ := List.mem_map.mp hx; exact one_le_encodeField kv)
  simp only [encodeObj, List.length_cons, List.length_append, List.length_map] at *
  omega

theorem one_le_encodeObj (o : JObj) : 1 ≤ (encodeObj o).length := by
  simp [encodeObj]

theorem encodeQueue_bounds (q : JQueue) :
    q.length ≤ (encodeQueue q).length ∧ ∀ x ∈ q, x.length ≤ (encodeQueue q).length := by
  constructor
  · have h := count_le_sepJoin (q.map encodeObj)
      (by intro x hx; obtain ⟨o, _, rfl⟩ := List.mem_map.mp hx; exact one_le_encodeObj o)
    simp only [encodeQueue, List.length_cons, List.length_append, List.length_map] at *
    omega
  · intro x hx
    have h1 := mem_le_sepJoin (q.map encodeObj) (encodeObj x)
      (List.mem_map.mpr ⟨x, hx, rfl⟩)
    have h2 := length_le_encodeObj x
    simp only [encodeQueue, List.length_cons, List.length_append] at *
    omega

theorem loadsQueue_dumpsQueue (q : JQueue) : loadsQueue (dumpsQueue q) = some q := by
  cases q with
  | nil => rfl
  | cons o os =>
    have hb := encodeQueue_bounds (o :: os)
    have hdata : (dumpsQueue (o :: os)).data = encodeQueue (o :: os) := rfl
    have e : encodeQueue (o :: os) =
        '[' :: (encodeObj o ++
          ((os.map encodeObj).flatMap (fun y => [',', ' '] ++ y) ++ [']'])) := by
      simp [encodeQueue, sepJoin]
    simp only [loadsQueue, hdata]
    rw [e]
    have hhead : headNotWs (encodeObj o ++
        ((os.map encodeObj).flatMap (fun y => [',', ' '] ++ y) ++ [']'])) = true := rfl
    obtain ⟨tl0, hcons⟩ : ∃ tl0,
        encodeObj o ++ ((os.map encodeObj).flatMap (fun y => [',', ' '] ++ y) ++ [']']) =
        '\x7b' :: tl0 := ⟨_, rfl⟩
    rw [show skipWs ('[' :: (encodeObj o ++
        ((os.map encodeObj).flatMap (fun y => [',', ' '] ++ y) ++ [']']))) =
      '[' :: (encodeObj o ++
        ((os.map encodeObj).flatMap (fun y => [',', ' '] ++ y) ++ [']'])) from rfl]
    simp only [eq_self_iff_true, if_true]
    rw [skipWs_eq_self hhead, hcons]
    simp only [show (('\x7b' : Char) = ']') = False by simp, if_false]
    rw [← hcons]
    have hrw : ((os.map encodeObj).flatMap (fun y => [',', ' '] ++ y) ++ [']']) =
        ((os.map encodeObj).flatMap (fun y => [',', ' '] ++ y) ++ ']' :: ([] : List Char)) := by
      simp
    rw [hrw]
    rw [parseEntriesLoop_encode os _ _ o []
      (by
        have := hb.1
        rw [e] at this
        simp only [List.length_cons] at this ⊢
        omega)
      (by
        intro x hx
        have := hb.2 x hx
        rw [e] at this
        simp only [List.length_cons] at this ⊢
        omega)]
    rfl

/-- C7: saving the queue and immediately loading it back returns exactly
the saved queue; the same holds right after an `enqueue_job` append (which
itself saves), so a crash between the append and the next save still finds
the appended queue on disk. -/
theorem queue_roundtrip (q : JQueue) :
    loadQueue (saveQueue q) = q ∧
    ∀ e : JObj, loadQueue (saveQueue (enqueueEntry q e)) = enqueueEntry q e := by
  constructor
  · show loadQueue (.content (dumpsQueue q)) = q
    simp [loadQueue, loadsQueue_dumpsQueue]
  · intro e
    show loadQueue (.content (dumpsQueue (q ++ [e]))) = q ++ [e]
    simp [loadQueue, loadsQueue_dumpsQueue]

/-- C9: a queue file that is missing, cannot be read, or holds content that
fails to parse loads as the empty queue rather than raising — so a corrupted
queue file silently discards every persisted pending job. -/
theorem corrupt_queue_loads_empty (s : String) (h : loadsQueue s = none) :
    loadQueue (.content s) = [] ∧ loadQueue .unreadable = [] ∧ loadQueue .missing = [] := by
  refine ⟨?_, rfl, rfl⟩
  simp [loadQueue, h]

/-- C9 witness: a file holding `not json` loads as the empty queue. -/
theorem corrupt_queue_loads_empty_witness :
    loadQueue (.content "not json") = [] ∧
    loadQueue .unreadable = [] ∧ loadQueue .missing = [] :=
  corrupt_queue_loads_empty "not json" rfl

/-- Model of the `QUEUE_FILE.write_text (...)` call in `_save_queue`
(print_daemon.py line 131): CPython `Path.write_text` opens the file with
mode "w" — truncating it in place — and then writes the new content; no
temporary file and no atomic rename is involved.  The file contents
observable by a concurrent reader or after a crash are, in order: the old
content (before the open), then every prefix of the new content (the
truncated file, partial writes), ending in the complete new content. -/
def saveQueueStates (old : String) (q : JQueue) : List String :=
  old :: (List.range ((dumpsQueue q).data.length + 1)).map
    (fun k => String.mk ((dumpsQueue q).data.take k))

/-- C2 (amended): every mutation rewrites the backing file wholesale — the
final observable content of `_save_queue` is exactly the serialization of
the new queue, independent of what was in the file before — but the rewrite
is an in-place truncate-then-write, not an atomic temp-then-replace: the
empty file and the pre-mutation content are among the observable
intermediate states, so a crash mid-save can expose a torn file. -/
theorem save_full_rewrite (old : String) (q : JQueue) :
    (saveQueueStates old q).getLast? = some (dumpsQueue q) ∧
    "" ∈ saveQueueStates old q ∧
    old ∈ saveQueueStates old q := by
  refine ⟨?_, ?_, List.mem_cons_self _ _⟩
  · rw [saveQueueStates, List.range_succ, List.map_append]
    simp only [List.map_cons, List.map_nil]
    rw [← List.cons_append, List.getLast?_concat, List.take_length]
  · refine List.mem_cons_of_mem _ (List.mem_map.mpr ⟨0, List.mem_range.mpr (by omega), ?_⟩)
    rfl

/-- C2 counterexample: saving the empty queue over a file that held the
serialization of a one-entry queue exposes the intermediate content `[`,
which is neither the complete pre-mutation state nor the complete
post-mutation state — a torn file. -/
theorem atomic_save_counterexample :
    String.mk ((dumpsQueue []).data.take 1) = "[" ∧
    String.mk ((dumpsQueue []).data.take 1) ∈ saveQueueStates (dumpsQueue [[]]) [] ∧
    String.mk ((dumpsQueue []).data.take 1) ≠ dumpsQueue [[]] ∧
    String.mk ((dumpsQueue []).data.take 1) ≠ dumpsQueue [] := by
  refine ⟨by decide, ?_, by decide, by decide⟩
  decide

end PrintDaemon
